import Mathlib

/-!
Shallow embedding of the synthetic recording generator in
`spikeinterface/extractors/toy_example.py` (functions `toy_example`,
`synthesize_random_firings`, `rand_distr2`, `enforce_refractory_period`,
`synthesize_random_waveforms`, `get_default_neuron_locations`, `exp_growth`,
`exp_decay`, `smooth_it`, `synthesize_single_waveform`,
`synthesize_timeseries`), together with proofs about the claims on it.

Modelling conventions:
* numpy float arithmetic is carried out over `ℚ`;
* every random draw of `np.random` is an input: a `RandomOracle` bundles one
  field per distinct stream used by the source (`np.random.seed(seed)`
  followed by global draws, and fresh `np.random.RandomState(sub-seed)`
  streams), indexed by the seed that the source passes to it, so a function
  of the oracle and a seed is exactly a deterministic seeded run;
* `np.exp` and `np.sqrt` are strictly increasing real functions whose exact
  values never matter for the claims; they are taken as function parameters
  `expFn`/`sqrtFn`;
* fallible Python code (raising `ZeroDivisionError`/`TypeError`) is embedded
  in `Option`, `none` marking the raise.
-/

set_option maxRecDepth 10000

namespace ToyExample

/-- Python `int(x)` / numpy `astype(int64)` / `np.int64 x`: truncation toward
zero. -/
def pyTrunc (q : ℚ) : ℤ := if 0 ≤ q then ⌊q⌋ else -⌊-q⌋

/-- numpy `np.round`: round half to even. -/
def pyRound (q : ℚ) : ℤ :=
  let f := ⌊q⌋
  let r := q - (f : ℚ)
  if r < 1/2 then f
  else if 1/2 < r then f + 1
  else if f % 2 = 0 then f else f + 1

/-- numpy index with negative wraparound: index `j` into an axis of length
`n` (the source only ever uses indices in `[-n, n)`). -/
def pyIdx (j : ℤ) (n : ℕ) : ℕ := (if j < 0 then j + n else j).toNat

/-- `np.roll Y j`: circular right shift by `j`, so entry `i` of the result is
entry `(i - j) mod length` of `Y`. -/
def rollList (l : List ℚ) (j : ℤ) : List ℚ :=
  l.rotate ((-j % (l.length : ℤ)).toNat)

/-- First-maximum scan: `np.argmax (np.abs Y)` paired with the maximal
absolute value itself. -/
def argA : List ℚ → ℕ × ℚ
  | [] => (0, 0)
  | x :: xs =>
    let p := argA xs
    if |x| < p.2 then (p.1 + 1, p.2) else (0, |x|)

/-- numpy slice assignment `Y[a : a + vals.length] = vals` (the source always
writes slices that fit inside `Y`). -/
def writeSlice : List ℚ → ℤ → List ℚ → List ℚ
  | [], _, _ => []
  | x :: xs, a, vals =>
    (if a ≤ 0 ∧ 0 < a + (vals.length : ℤ) then vals.getD (-a).toNat 0 else x) ::
      writeSlice xs (a - 1) vals

/-- `np.linspace a b n` (endpoints included). -/
def linspaceQ (a b : ℚ) (n : ℕ) : List ℚ :=
  if n ≤ 1 then List.replicate n a
  else (List.range n).map (fun i : ℕ => a + (b - a) * (i : ℚ) / ((n : ℚ) - 1))

/-- The source's `exp_growth(amp1, amp2, dur1, dur2)`; `expFn` stands for
`np.exp`.  The source indexes `Y[-1]` so an empty `t` range is a crash there;
`headD`/`getLastD` make the embedding total, and every use below has
`dur1 ≥ 1`. -/
def exp_growth (expFn : ℚ → ℚ) (amp1 amp2 : ℚ) (dur1 : ℤ) (dur2 : ℚ) : List ℚ :=
  let Y := (List.range dur1.toNat).map (fun i : ℕ => expFn ((i : ℚ) / dur2))
  let Y2 := Y.map (fun y => y / (Y.getLastD 0 - Y.headD 0) * (amp2 - amp1))
  Y2.map (fun y => y - Y2.headD 0 + amp1)

/-- The source's `exp_decay`: `exp_growth` with the amplitudes swapped, then
reversed (`np.flipud`). -/
def exp_decay (expFn : ℚ → ℚ) (amp1 amp2 : ℚ) (dur1 : ℤ) (dur2 : ℚ) : List ℚ :=
  (exp_growth expFn amp2 amp1 dur1 dur2).reverse

/-- The source's `smooth_it(Y, t)`: sum of the `2t+1` circular shifts of `Y`
by `-t, …, t` (a moving *sum*, not averaged). -/
def smooth_it (Y : List ℚ) (t : ℕ) : List ℚ :=
  (List.range (2 * t + 1)).foldl
    (fun Z (i : ℕ) => List.zipWith (· + ·) Z (rollList Y ((i : ℤ) - (t : ℤ))))
    (List.replicate Y.length 0)

/-- The source's `synthesize_single_waveform(N, durations, amps)`.  The four
entries of `durations`/`amps` are the four piecewise-exponential segments;
`expFn` stands for `np.exp`. -/
def synthesize_single_waveform (N : ℕ) (dIn amps : Fin 4 → ℚ) (expFn : ℚ → ℚ) :
    List ℚ :=
  -- if np.sum(durations) >= N - 2: durations[-1] = N - 2 - np.sum(durations[0:3])
  let sumIn := dIn 0 + dIn 1 + dIn 2 + dIn 3
  let d3 := if (N : ℚ) - 2 ≤ sumIn then (N : ℚ) - 2 - (dIn 0 + dIn 1 + dIn 2) else dIn 3
  -- timepoints = np.round(np.hstack((0, np.cumsum(durations) - 1)))
  let tp0 : ℤ := pyRound 0
  let tp1 : ℤ := pyRound (dIn 0 - 1)
  let tp2 : ℤ := pyRound (dIn 0 + dIn 1 - 1)
  let tp3 : ℤ := pyRound (dIn 0 + dIn 1 + dIn 2 - 1)
  let tp4 : ℤ := pyRound (dIn 0 + dIn 1 + dIn 2 + d3 - 1)
  -- t = np.r_[0 : np.sum(durations) + 1]; Y = np.zeros(len(t))
  let lenT : ℕ := (⌈dIn 0 + dIn 1 + dIn 2 + d3 + 1⌉ : ℤ).toNat
  let Y0 := List.replicate lenT (0 : ℚ)
  let Y1 := writeSlice Y0 tp0 (exp_growth expFn 0 (amps 0) (tp1 + 1 - tp0) (dIn 0 / 4))
  let Y2 := writeSlice Y1 tp1 (exp_growth expFn (amps 0) (amps 1) (tp2 + 1 - tp1) (dIn 1))
  let Y3 := writeSlice Y2 tp2 (exp_decay expFn (amps 1) (amps 2) (tp3 + 1 - tp2) (dIn 2 / 4))
  let Y4 := writeSlice Y3 tp3 (exp_decay expFn (amps 2) (amps 3) (tp4 + 1 - tp3) (d3 / 5))
  let Y5 := smooth_it Y4 3
  let Y6 := List.zipWith (· - ·) Y5 (linspaceQ (Y5.headD 0) (Y5.getLastD 0) lenT)
  -- Y = np.hstack((Y, np.zeros(N - len(t)))); roll the peak to floor (N/2)
  let Y7 := Y6 ++ List.replicate (N - lenT) (0 : ℚ)
  rollList Y7 (((N / 2 : ℕ) : ℤ) - ((argA Y7).1 : ℤ))

/-! ### RefractoryRepair: `enforce_refractory_period` -/

/-- One marking pass of `enforce_refractory_period`: with
`diffs = times0[1:] - times0[:-1]` padded by `np.inf`, the source marks every
index `i` with `diffs[i] <= refr` and `diffs[i+1] >= refr` (the padding makes
the successor condition hold at the last position), then deletes the marked
entries.  All marks are decided against the *original* neighbours, which the
scan below reproduces by always recursing on the untouched tail. -/
def refrPass (refr : ℚ) : List ℚ → List ℚ
  | [] => []
  | [a] => [a]
  | a :: b :: rest =>
    if b - a ≤ refr ∧ refr ≤ rest.headD (b + refr) - b then
      refrPass refr (b :: rest)
    else a :: refrPass refr (b :: rest)

/-- The `while not done` loop of `enforce_refractory_period`, with explicit
fuel (each productive pass strictly shrinks the list, so fuel
`l.length` reaches the fixed point; `refrLoopF_fixed` below proves it).  When
a pass marked something, the source's filter `times0[times0 >= 0]` also drops
any unmarked negative entries, reproduced here. -/
def refrLoopF (refr : ℚ) : ℕ → List ℚ → List ℚ
  | 0, l => l
  | fuel + 1, l =>
    let l2 := refrPass refr l
    if l2.length = l.length then l
    else refrLoopF refr fuel (l2.filter (fun t => decide (0 ≤ t)))

/-- The source's `enforce_refractory_period(times_in, refr)`: empty input is
returned at once, otherwise the input is sorted (`np.sort`) and the marking
pass is iterated to its fixed point. -/
def enforce_refractory_period (times_in : List ℚ) (refr : ℚ) : List ℚ :=
  if times_in = [] then times_in
  else
    let s := List.insertionSort (· ≤ ·) times_in
    refrLoopF refr s.length s

/-! ### FiringGenerator: `synthesize_random_firings` -/

/-- All randomness consumed by the pipeline, as deterministic functions of the
seeds the source feeds to numpy.  `subseed seed u` stands for
`np.random.RandomState(seed).randint(0, 2147483647, K)[u]` (computed
identically in `synthesize_random_firings` and `synthesize_random_waveforms`);
`rand01 seed u i` for the `i`-th global `np.random.rand` draw of unit `u`
after `np.random.seed(seed)`; `distrRand sd i` for
`np.random.RandomState(sd).rand(num)[i]`; `choice sd n half j` for
`np.random.RandomState(sd).choice(n, half)[j]`; `randn sd i` for
`np.random.RandomState(sd).randn(1, 4)[0, i]`; `uniformAmp sd` for
`np.random.RandomState(sd).uniform(0.5, 1)`; `noise seed m j` for
`np.random.RandomState(seed).randn(M, N)[m, j]`. -/
structure RandomOracle where
  subseed : ℕ → ℕ → ℕ
  rand01 : ℕ → ℕ → ℕ → ℚ
  distrRand : ℕ → ℕ → ℚ
  choice : ℕ → ℕ → ℕ → ℕ → ℕ
  randn : ℕ → ℕ → ℚ
  uniformAmp : ℕ → ℚ
  noise : ℕ → ℕ → ℕ → ℚ

/-- The source's `rand_distr2(a, b, num, seed)`: `a + (b - a) * X ** 2` for
`num` uniform draws `X` of `RandomState(seed)`. -/
def rand_distr2 (Ω : RandomOracle) (a b : ℚ) (num : ℕ) (sd : ℕ) : List ℚ :=
  (List.range num).map (fun i => a + (b - a) * (Ω.distrRand sd i) ^ 2)

/-- Body of the per-unit loop of `synthesize_random_firings`: the surviving
spike times of one unit, already cast with `astype('int64')`. -/
def synthesize_random_firings_unit (Ω : RandomOracle) (sf : ℚ) (N : ℤ)
    (seed : ℕ) (u : ℕ) : List ℤ :=
  let refr_timepoints := 4 / 1000 * sf
  -- populations = np.ceil(firing_rates / sampling_frequency * N), rate 3 Hz
  let pop : ℕ := (⌈3 / sf * (N : ℚ)⌉ : ℤ).toNat
  let times0 := (List.range pop).map (fun i => Ω.rand01 seed u i * ((N : ℚ) - 1) + 1)
  let sd := Ω.subseed seed u
  let lags := rand_distr2 Ω refr_timepoints (refr_timepoints * 20) times0.length sd
  let combined := times0 ++ List.zipWith (· + ·) times0 lags
  let half := combined.length / 2
  let chosen := (List.range half).map
    (fun j => combined.getD (Ω.choice sd combined.length half j) 0)
  let inrange := chosen.filter (fun t => decide (0 ≤ t) && decide (t < (N : ℚ)))
  (enforce_refractory_period inrange refr_timepoints).map pyTrunc

/-- The source's `synthesize_random_firings` after `N = np.int64(duration *
sampling_frequency)` has been computed: per unit, candidate times, burst
injection, half subsampling, range filter and refractory repair; the labels
are `np.ones(times0.size, dtype='int64')` — the constant `1`, the loop
variable `unit_id` is never used — and the concatenation is ordered by
`np.argsort(times)` (order among exact ties is unspecified there; a stable
sort is used). -/
def synthesize_random_firings_core (Ω : RandomOracle) (K : ℕ) (sf : ℚ)
    (N : ℤ) (seed : ℕ) : List ℤ × List ℤ :=
  let pairs := (List.range K).flatMap (fun u =>
    (synthesize_random_firings_unit Ω sf N seed u).map (fun t => (t, (1 : ℤ))))
  let sorted := List.insertionSort (fun p q : ℤ × ℤ => p.1 ≤ q.1) pairs
  (sorted.map Prod.fst, sorted.map Prod.snd)

/-- The source's `synthesize_random_firings(K, sampling_frequency, duration,
seed)` for a scalar (float) duration. -/
def synthesize_random_firings (Ω : RandomOracle) (K : ℕ) (sf duration : ℚ)
    (seed : ℕ) : List ℤ × List ℤ :=
  synthesize_random_firings_core Ω K sf (pyTrunc (duration * sf)) seed

/-- A concrete oracle used for the evaluated runs below: unit `u` draws the
uniform value `99/999` (unit 0) or `101/999` (unit 1), the burst-lag uniform
draws are `0`, `choice` picks index `j` itself, all Gaussian draws are `0`. -/
def Ωfir : RandomOracle where
  subseed := fun _ u => u
  rand01 := fun _ u _ => if u = 0 then 99/999 else 101/999
  distrRand := fun _ _ => 0
  choice := fun _ _ _ j => j
  randn := fun _ _ => 0
  uniformAmp := fun _ => 1
  noise := fun _ _ _ => 0

/-! ### NeuronPlacer: `get_default_neuron_locations` -/

/-- The source's `get_default_neuron_locations(M, K, geometry)`.  Geometry is
a 2×M array given column-wise; `none` records a raise.  For every `k` in
`range(1, K + 1)` the source evaluates `(k - 1) / (K - 1)` under the dead
guard `if K > 0:` (always true inside the loop), so `K = 1` divides by zero —
a Python `ZeroDivisionError`.  The unreachable `else` branches are kept. -/
def get_default_neuron_locations (M K : ℕ) (geometry : ℕ → ℚ × ℚ) :
    Option (List (ℚ × ℚ)) :=
  (List.range K).mapM (fun k0 =>
    let k : ℕ := k0 + 1
    if 0 < K then
      if K = 1 then none
      else
        let ind : ℚ := ((k : ℚ) - 1) / ((K : ℚ) - 1) * ((M : ℚ) - 1) + 1
        let i0 : ℤ := pyTrunc ind
        let ind0 : ℤ := if i0 = (M : ℤ) then (M : ℤ) - 1 else i0
        let p : ℚ := if i0 = (M : ℤ) then 1 else ind - (i0 : ℚ)
        if 0 < M then
          let gL := geometry (pyIdx (ind0 - 1) M)
          let gR := geometry (pyIdx ind0 M)
          some ((1 - p) * gL.1 + p * gR.1, (1 - p) * gL.2 + p * gR.2)
        else some (geometry 0)
    else some (geometry 0))

/-! ### TemplateSynthesizer: `synthesize_random_waveforms` -/

/-- The hard-coded default geometry of `synthesize_random_waveforms`:
`geometry[0, :] = np.arange(1, M + 1)`, second row zero (column `m`,
0-based, is `(m + 1, 0)`). -/
def defaultGeometry : ℕ → ℚ × ℚ := fun m => ((m : ℚ) + 1, 0)

/-- Per-unit peak absolute amplitude: `np.max(np.abs WW, axis=(0, 1))` for
one unit, over `M` channels and `TT` (upsampled) time offsets. -/
def peakUnit (M TT : ℕ) (w : ℕ → ℕ → ℚ) : ℚ :=
  ((List.range M).map (fun m =>
    ((List.range TT).map (fun t => |w m t|)).foldr max 0)).foldr max 0

/-- Mean over the `K` units of the per-unit peak absolute amplitudes:
`np.mean(peaks)`. -/
def meanPeaks (M TT K : ℕ) (WW : ℕ → ℕ → ℕ → ℚ) : ℚ :=
  ((List.range K).map (fun k => peakUnit M TT (fun m t => WW m t k))).sum / K

/-- The source's global normalization
`WW = WW / np.mean(peaks) * average_peak_amplitude` (lines 211–212). -/
def normalize_templates (M TT K : ℕ) (WW : ℕ → ℕ → ℕ → ℚ) (avg : ℚ) :
    ℕ → ℕ → ℕ → ℚ :=
  fun m t k => WW m t k / meanPeaks M TT K WW * avg

/-- The template tensor of `synthesize_random_waveforms` *before* the final
normalization, as a function of (channel, upsampled time, unit); `sqrtFn`
stands for `np.sqrt` applied to the squared Euclidean distance.  For each
(unit, channel) pair the source draws duration and amplitude jitter from a
*fresh* `RandomState(seeds[i])`, so the two `randn(1, 4)` calls yield the
same four values — `Ω.randn sd` is used for both, faithfully. -/
def synthesize_random_waveforms_raw (Ω : RandomOracle) (M T K upsamplefac : ℕ)
    (timeshift_factor : ℚ) (seed : ℕ) (expFn sqrtFn : ℚ → ℚ) :
    Option (ℕ → ℕ → ℕ → ℚ) :=
  (get_default_neuron_locations M K defaultGeometry).map (fun locs =>
    fun m t k =>
      if m < M ∧ t < T * upsamplefac ∧ k < K then
        let loc := locs.getD k (0, 0)
        let g := defaultGeometry m
        let dist := sqrtFn ((loc.1 - g.1) ^ 2 + (loc.2 - g.2) ^ 2)
        let sd := Ω.subseed seed k
        -- avg_durations [200,10,30,200], stdev [10,4,6,20], floor of 1 sample
        let durations0 : Fin 4 → ℚ := fun i =>
          max 1 (![200, 10, 30, 200] i + Ω.randn sd i * ![10, 4, 6, 20] i)
            * upsamplefac
        -- avg_amps [0.5,10,-1,0], stdev [0.2,3,0.5,0]
        let amps0 : Fin 4 → ℚ := fun i =>
          ![1/2, 10, -1, 0] i + Ω.randn sd i * ![1/5, 3, 1/2, 0] i
        let w0 := synthesize_single_waveform (T * upsamplefac) durations0 amps0 expFn
        let w1 := rollList w0 (pyTrunc (timeshift_factor * dist * upsamplefac))
        let w2 := w1.map (fun y => y * Ω.uniformAmp sd)
        -- geom_spread_coef1 = 0.2, geom_spread_coef2 = 1
        w2.getD t 0 / (1/5 + dist * 1)
      else 0)

/-- The source's `synthesize_random_waveforms(M, T, K, upsamplefac,
timeshift_factor, average_peak_amplitude, seed)`: raw tensor followed by the
global normalization (the returned transposed geometry is `defaultGeometry`
and is omitted). -/
def synthesize_random_waveforms (Ω : RandomOracle) (M T K upsamplefac : ℕ)
    (timeshift_factor avg : ℚ) (seed : ℕ) (expFn sqrtFn : ℚ → ℚ) :
    Option (ℕ → ℕ → ℕ → ℚ) :=
  (synthesize_random_waveforms_raw Ω M T K upsamplefac timeshift_factor seed
    expFn sqrtFn).map
    (fun WW => normalize_templates M (T * upsamplefac) K WW avg)

/-! ### TimeSeriesCompositor: `synthesize_timeseries` -/

/-- `T = int(TT / waveform_upsamplefac)` of `synthesize_timeseries`. -/
def tsT (TT upsamplefac : ℕ) : ℕ := TT / upsamplefac

/-- `Tmid = int(np.ceil((T + 1) / 2 - 1))` of `synthesize_timeseries`. -/
def tsTmid (TT upsamplefac : ℕ) : ℤ := ⌈((tsT TT upsamplefac : ℚ) + 1) / 2 - 1⌉

/-- One spike stamp of `synthesize_timeseries`: with `tstart =
np.int64(np.floor t0) - Tmid`, the strided slice
`waveform0[:, frac_offset::upsamplefac]` (length `T`) is added on the columns
`[tstart, tstart + T)` — but only if that window lies inside `[0, N)`;
otherwise the spike is dropped without effect (`amp0 = 1` throughout). -/
def stampSpike (w : ℕ → ℕ → ℚ) (TT upsamplefac : ℕ) (N : ℤ)
    (X : ℕ → ℕ → ℚ) (t0 : ℚ) : ℕ → ℕ → ℚ :=
  let T := tsT TT upsamplefac
  let Tmid := tsTmid TT upsamplefac
  let frac_offset : ℕ := (⌊(t0 - (⌊t0⌋ : ℚ)) * upsamplefac⌋).toNat
  let tstart : ℤ := ⌊t0⌋ - Tmid
  if 0 ≤ tstart ∧ tstart + T ≤ N then
    fun m j => X m j +
      (if tstart ≤ (j : ℤ) ∧ (j : ℤ) < tstart + T then
        w m (frac_offset + ((j : ℤ) - tstart).toNat * upsamplefac) else 0)
  else X

/-- The per-unit loop body of `synthesize_timeseries`: `waveform0 =
waveforms[:, :, k0 - 1]` (numpy wraps `k0 - 1 = -1` to the last unit) and the
spikes with `spike_labels == k0` are stamped in order. -/
def stampUnit (spike_times : List ℚ) (spike_labels : List ℤ)
    (W : ℕ → ℕ → ℕ → ℚ) (K TT upsamplefac : ℕ) (N : ℤ)
    (k0 : ℤ) (X : ℕ → ℕ → ℚ) : ℕ → ℕ → ℚ :=
  let w := fun m tt => W m tt (pyIdx (k0 - 1) K)
  let times0 := ((spike_times.zip spike_labels).filter (fun p => p.2 = k0)).map
    Prod.fst
  times0.foldl (stampSpike w TT upsamplefac N) X

/-- The source's `synthesize_timeseries` after `N = np.int64
(sampling_frequency * duration)` has been computed: Gaussian background
`RandomState(seed).randn(M, N) * noise_level`, then every unit id in turn
stamps its spikes. -/
def synthesize_timeseries_core (Ω : RandomOracle) (spike_times : List ℚ)
    (spike_labels : List ℤ) (unit_ids : List ℤ) (W : ℕ → ℕ → ℕ → ℚ)
    (K TT upsamplefac : ℕ) (N : ℤ) (noise_level : ℚ) (seed : ℕ) :
    ℕ → ℕ → ℚ :=
  let X0 : ℕ → ℕ → ℚ := fun m j => Ω.noise seed m j * noise_level
  unit_ids.foldl
    (fun X k0 => stampUnit spike_times spike_labels W K TT upsamplefac N k0 X) X0

/-- Specification predicate for C7: column `j` is not covered by the
stamping window of an accepted spike at time `t0` (a spike is accepted when
its full window `[⌊t0⌋ - Tmid, ⌊t0⌋ - Tmid + T)` lies within `[0, N)`). -/
def spikeUntouched (TT upsamplefac : ℕ) (N : ℤ) (j : ℕ) (t0 : ℚ) : Prop :=
  (0 ≤ ⌊t0⌋ - tsTmid TT upsamplefac ∧
      ⌊t0⌋ - tsTmid TT upsamplefac + (tsT TT upsamplefac : ℤ) ≤ N) →
    ¬ (⌊t0⌋ - tsTmid TT upsamplefac ≤ (j : ℤ) ∧
      (j : ℤ) < ⌊t0⌋ - tsTmid TT upsamplefac + (tsT TT upsamplefac : ℤ))

instance (TT upsamplefac : ℕ) (N : ℤ) (j : ℕ) (t0 : ℚ) :
    Decidable (spikeUntouched TT upsamplefac N j t0) :=
  inferInstanceAs (Decidable ((0 ≤ ⌊t0⌋ - tsTmid TT upsamplefac ∧
      ⌊t0⌋ - tsTmid TT upsamplefac + (tsT TT upsamplefac : ℤ) ≤ N) →
    ¬ (⌊t0⌋ - tsTmid TT upsamplefac ≤ (j : ℤ) ∧
      (j : ℤ) < ⌊t0⌋ - tsTmid TT upsamplefac + (tsT TT upsamplefac : ℤ))))

/-! ### Orchestrator: `toy_example` -/

/-- Python `duration * sampling_frequency` (or `sampling_frequency *
duration`) as it appears inside `synthesize_random_firings` and
`synthesize_timeseries` when `toy_example` forwards its raw `duration`
argument: a float multiplies fine, a `list * float` raises `TypeError`. -/
def pyDurationMulSf (duration : ℚ ⊕ List ℚ) (sf : ℚ) : Option ℚ :=
  match duration with
  | .inl d => some (d * sf)
  | .inr _ => none

/-- One segment of `toy_example`'s output: the `(times, labels)` pair handed
to the sorting and the traces handed to the recording. -/
structure SegmentData where
  times : List ℤ
  labels : List ℤ
  traces : ℕ → ℕ → ℚ

instance : Inhabited SegmentData := ⟨⟨[], [], fun _ _ => 0⟩⟩

/-- The source's `toy_example(duration, num_channels, num_units,
sampling_frequency, num_segments, average_peak_amplitude, upsamplefac,
seed)`.  Scalar durations broadcast (`int` is first coerced to `float`; the
sum type is the scalar-or-list input); a list must have length
`num_segments` and all-float entries (an `assert` — `none` on mismatch).
The waveform tensor is built once (`T = 500`, `timeshift_factor = 3`); then
per segment the source calls `synthesize_random_firings` and
`synthesize_timeseries` *with the raw `duration` argument and the same
`seed`*, so a list duration raises `TypeError` inside the very first segment,
and all segments of a seeded run coincide.

The body of the per-segment loop is `toy_example_segment`:
`synthesize_random_firings` followed by `synthesize_timeseries` — both
invoked with the raw `duration` argument and the caller's `seed`,
independent of the segment index. -/
def toy_example_segment (Ω : RandomOracle) (duration : ℚ ⊕ List ℚ)
    (num_units : ℕ) (sf : ℚ) (upsamplefac : ℕ) (seed : ℕ)
    (waveforms : ℕ → ℕ → ℕ → ℚ) (unit_ids : List ℤ) : Option SegmentData := do
  let prodF ← pyDurationMulSf duration sf
  let tl := synthesize_random_firings_core Ω num_units sf (pyTrunc prodF) seed
  let prodT ← pyDurationMulSf duration sf
  let traces := synthesize_timeseries_core Ω (tl.1.map (fun t : ℤ => (t : ℚ)))
    tl.2 unit_ids waveforms num_units (500 * upsamplefac) upsamplefac
    (pyTrunc prodT) 10 seed
  pure ⟨tl.1, tl.2, traces⟩

def toy_example (Ω : RandomOracle) (duration : ℚ ⊕ List ℚ)
    (num_channels num_units : ℕ) (sf : ℚ) (num_segments : ℕ) (avg : ℚ)
    (upsamplefac : ℕ) (seed : ℕ) (expFn sqrtFn : ℚ → ℚ) :
    Option (List SegmentData) := do
  let _durations ← (match duration with
    | .inl d => some (List.replicate num_segments d)
    | .inr ds => if ds.length = num_segments then some ds else none)
  let waveforms ← synthesize_random_waveforms Ω num_channels 500 num_units
    upsamplefac 3 avg seed expFn sqrtFn
  let unit_ids := (List.range num_units).map (fun u : ℕ => (u : ℤ))
  (List.range num_segments).mapM (fun _ =>
    toy_example_segment Ω duration num_units sf upsamplefac seed waveforms
      unit_ids)

/-! ### Length bookkeeping lemmas -/

theorem length_writeSlice (l : List ℚ) (a : ℤ) (vals : List ℚ) :
    (writeSlice l a vals).length = l.length := by
  induction l generalizing a with
  | nil => rfl
  | cons x xs ih => simp [writeSlice, ih]

theorem length_rollList (l : List ℚ) (j : ℤ) :
    (rollList l j).length = l.length := by
  simp [rollList]

theorem foldl_zip_roll_length (Y : List ℚ) (rs : List ℕ) (t : ℕ) (Z : List ℚ)
    (hZ : Z.length = Y.length) :
    (rs.foldl (fun Z (i : ℕ) => List.zipWith (· + ·) Z (rollList Y ((i : ℤ) - (t : ℤ))))
      Z).length = Y.length := by
  induction rs generalizing Z with
  | nil => exact hZ
  | cons r rs ih =>
    rw [List.foldl_cons]
    exact ih _ (by simp [List.length_zipWith, length_rollList, hZ])

theorem length_smooth_it (Y : List ℚ) (t : ℕ) :
    (smooth_it Y t).length = Y.length := by
  unfold smooth_it
  exact foldl_zip_roll_length Y _ t _ (by simp)

theorem length_linspaceQ (a b : ℚ) (n : ℕ) : (linspaceQ a b n).length = n := by
  unfold linspaceQ
  split
  · exact List.length_replicate n a
  · rw [List.length_map, List.length_range]

/-! ### Peak location: `argA` and `rollList` -/

theorem argA_fst_lt (l : List ℚ) (h : l ≠ []) : (argA l).1 < l.length := by
  induction l with
  | nil => exact absurd rfl h
  | cons x xs ih =>
    simp only [argA, List.length_cons]
    split
    · rename_i hlt
      have hxs : xs ≠ [] := by
        intro he
        subst he
        simp only [argA] at hlt
        exact absurd hlt (not_lt.mpr (abs_nonneg x))
      exact Nat.succ_lt_succ (ih hxs)
    · exact Nat.succ_pos _

theorem argA_le (l : List ℚ) (i : ℕ) (hi : i < l.length) :
    |l.getD i 0| ≤ (argA l).2 := by
  induction l generalizing i with
  | nil => exact absurd hi (Nat.not_lt_zero i)
  | cons x xs ih =>
    simp only [argA]
    split
    · rename_i hlt
      cases i with
      | zero => simpa using hlt.le
      | succ n => simpa using ih n (Nat.lt_of_succ_lt_succ hi)
    · rename_i hge
      cases i with
      | zero => simp
      | succ n =>
        have h1 := ih n (Nat.lt_of_succ_lt_succ hi)
        simpa using h1.trans (not_lt.mp hge)

theorem argA_getD (l : List ℚ) (h : l ≠ []) :
    |l.getD (argA l).1 0| = (argA l).2 := by
  induction l with
  | nil => exact absurd rfl h
  | cons x xs ih =>
    simp only [argA]
    split
    · rename_i hlt
      have hxs : xs ≠ [] := by
        intro he
        subst he
        simp only [argA] at hlt
        exact absurd hlt (not_lt.mpr (abs_nonneg x))
      simpa using ih hxs
    · simp

theorem rollList_getD (l : List ℚ) (s : ℤ) (i : ℕ) (hi : i < l.length) :
    (rollList l s).getD i 0 =
      l.getD ((i + ((-s) % (l.length : ℤ)).toNat) % l.length) 0 := by
  have h0 : 0 < l.length := lt_of_le_of_lt (Nat.zero_le i) hi
  rw [List.getD_eq_getElem _ _ (by rw [length_rollList]; exact hi),
    List.getD_eq_getElem _ _ (Nat.mod_lt _ h0)]
  exact List.getElem_rotate l _ i _

theorem mod_shift_recover (mid a N : ℕ) (ha : a < N) :
    (mid + (((a : ℤ) - (mid : ℤ)) % (N : ℤ)).toNat) % N = a := by
  have hN : 0 < N := lt_of_le_of_lt (Nat.zero_le a) ha
  have hNz : (N : ℤ) ≠ 0 := by exact_mod_cast hN.ne'
  have h0 : (0 : ℤ) ≤ ((a : ℤ) - mid) % N := Int.emod_nonneg _ hNz
  have key : ((mid : ℤ) + ((a : ℤ) - mid) % N) % N = a := by
    rw [Int.add_emod, Int.emod_emod_of_dvd _ dvd_rfl, ← Int.add_emod,
      add_sub_cancel]
    exact Int.emod_eq_of_lt (by exact_mod_cast Nat.zero_le a) (by exact_mod_cast ha)
  have hcast : (((mid + (((a : ℤ) - mid) % N).toNat) % N : ℕ) : ℤ) = (a : ℤ) := by
    push_cast [Int.toNat_of_nonneg h0]
    exact key
  exact_mod_cast hcast

/-- The final `np.roll(Y, Nmid - peakind)` of `synthesize_single_waveform`
centers the maximal absolute sample: for any length-`N` list the rolled list
still has length `N` and attains its maximal absolute value at `N / 2`. -/
theorem padded_center (P : List ℚ) (N : ℕ) (hP : P.length = N) (hN : 0 < N) :
    (rollList P (((N / 2 : ℕ) : ℤ) - ((argA P).1 : ℤ))).length = N ∧
    ∀ i < N,
      |(rollList P (((N / 2 : ℕ) : ℤ) - ((argA P).1 : ℤ))).getD i 0| ≤
        |(rollList P (((N / 2 : ℕ) : ℤ) - ((argA P).1 : ℤ))).getD (N / 2) 0| := by
  have hPne : P ≠ [] := by
    intro he
    rw [he] at hP
    simp only [List.length_nil] at hP
    omega
  have ha : (argA P).1 < N := hP ▸ argA_fst_lt P hPne
  have hmid : N / 2 < N := Nat.div_lt_self hN (by norm_num)
  refine ⟨by rw [length_rollList, hP], ?_⟩
  intro i hi
  rw [rollList_getD P _ i (by rw [hP]; exact hi),
    rollList_getD P _ (N / 2) (by rw [hP]; exact hmid)]
  have hrec : (N / 2 +
      ((-((((N / 2 : ℕ) : ℤ)) - ((argA P).1 : ℤ))) % (P.length : ℤ)).toNat) %
        P.length = (argA P).1 := by
    rw [hP, neg_sub]
    exact mod_shift_recover (N / 2) (argA P).1 N ha
  rw [hrec, argA_getD P hPne]
  exact argA_le P _ (Nat.mod_lt _ (hP ▸ hN))

/-- The tail of `synthesize_single_waveform` (smoothing, baseline removal,
zero padding, peak-centering roll) applied to any segment-written list of
length `lenT ≤ N` yields a length-`N` list with its maximal absolute sample
at `N / 2`. -/
theorem waveform_tail_spec (Y4 : List ℚ) (lenT N : ℕ)
    (hlen : Y4.length = lenT) (hle : lenT ≤ N) (hN : 0 < N) :
    (rollList
        (List.zipWith (· - ·) (smooth_it Y4 3)
            (linspaceQ ((smooth_it Y4 3).headD 0) ((smooth_it Y4 3).getLastD 0)
              lenT) ++
          List.replicate (N - lenT) 0)
        (((N / 2 : ℕ) : ℤ) -
          ((argA
              (List.zipWith (· - ·) (smooth_it Y4 3)
                  (linspaceQ ((smooth_it Y4 3).headD 0)
                    ((smooth_it Y4 3).getLastD 0) lenT) ++
                List.replicate (N - lenT) 0)).1 : ℤ))).length = N ∧
    ∀ i < N,
      |(rollList
          (List.zipWith (· - ·) (smooth_it Y4 3)
              (linspaceQ ((smooth_it Y4 3).headD 0) ((smooth_it Y4 3).getLastD 0)
                lenT) ++
            List.replicate (N - lenT) 0)
          (((N / 2 : ℕ) : ℤ) -
            ((argA
                (List.zipWith (· - ·) (smooth_it Y4 3)
                    (linspaceQ ((smooth_it Y4 3).headD 0)
                      ((smooth_it Y4 3).getLastD 0) lenT) ++
                  List.replicate (N - lenT) 0)).1 : ℤ))).getD i 0| ≤
        |(rollList
            (List.zipWith (· - ·) (smooth_it Y4 3)
                (linspaceQ ((smooth_it Y4 3).headD 0)
                  ((smooth_it Y4 3).getLastD 0) lenT) ++
              List.replicate (N - lenT) 0)
            (((N / 2 : ℕ) : ℤ) -
              ((argA
                  (List.zipWith (· - ·) (smooth_it Y4 3)
                      (linspaceQ ((smooth_it Y4 3).headD 0)
                        ((smooth_it Y4 3).getLastD 0) lenT) ++
                    List.replicate (N - lenT) 0)).1 : ℤ))).getD (N / 2) 0| := by
  apply padded_center
  · simp only [List.length_append, List.length_zipWith, length_smooth_it,
      length_linspaceQ, List.length_replicate, hlen, min_self]
    omega
  · exact hN

/-- C8: for every total length `N` and every durations/amplitudes
configuration accepted by the shaper (positive segment durations that fit
after the shrink-to-fit adjustment of the last duration), the waveform
returned by `synthesize_single_waveform` has length exactly `N` and its
sample of maximum absolute value sits at index `⌊N / 2⌋`. -/
theorem synthesize_single_waveform_length_centered
    (N : ℕ) (dIn amps : Fin 4 → ℚ) (expFn : ℚ → ℚ)
    (hd : ∀ i, 1 ≤ dIn i) (hfit : dIn 0 + dIn 1 + dIn 2 + 3 ≤ (N : ℚ)) :
    (synthesize_single_waveform N dIn amps expFn).length = N ∧
    ∀ i < N,
      |(synthesize_single_waveform N dIn amps expFn).getD i 0| ≤
        |(synthesize_single_waveform N dIn amps expFn).getD (N / 2) 0| := by
  have h0 := hd 0
  have h1 := hd 1
  have h2 := hd 2
  have h6 : (6 : ℚ) ≤ (N : ℚ) := by linarith
  have hN : 0 < N := by exact_mod_cast lt_of_lt_of_le (by norm_num : (0 : ℚ) < 6) h6
  have hle :
      ((⌈dIn 0 + dIn 1 + dIn 2 +
        (if (N : ℚ) - 2 ≤ dIn 0 + dIn 1 + dIn 2 + dIn 3 then
          (N : ℚ) - 2 - (dIn 0 + dIn 1 + dIn 2) else dIn 3) + 1⌉ : ℤ)).toNat ≤ N := by
    split
    · have harg : dIn 0 + dIn 1 + dIn 2 +
          ((N : ℚ) - 2 - (dIn 0 + dIn 1 + dIn 2)) + 1 = ((N : ℤ) : ℚ) - 1 := by
        push_cast
        ring
      rw [harg]
      have : (((N : ℤ) : ℚ)) - 1 = (((N : ℤ) - 1 : ℤ) : ℚ) := by push_cast; ring
      rw [this, Int.ceil_intCast]
      omega
    · rename_i hlt
      push_neg at hlt
      have hceil : (⌈dIn 0 + dIn 1 + dIn 2 + dIn 3 + 1⌉ : ℤ) ≤ (N : ℤ) - 1 := by
        rw [Int.ceil_le]
        push_cast
        linarith
      omega
  unfold synthesize_single_waveform
  exact waveform_tail_spec _ _ N
    (by simp only [length_writeSlice, List.length_replicate]) hle hN

/-! ### RefractoryRepair lemmas -/

theorem refrPass_sublist (refr : ℚ) :
    ∀ l : List ℚ, List.Sublist (refrPass refr l) l
  | [] => List.Sublist.refl []
  | [a] => List.Sublist.refl [a]
  | a :: b :: rest => by
    simp only [refrPass]
    split
    · exact (refrPass_sublist refr (b :: rest)).cons a
    · exact (refrPass_sublist refr (b :: rest)).cons₂ a

/-- A pass that still sees a violating adjacent pair removes at least one
element: the last violating pair of a run always satisfies the successor
condition (the `np.inf` padding covers the final position). -/
theorem refrPass_shrinks (refr : ℚ) :
    ∀ l : List ℚ, ¬ l.Chain' (fun x y => refr < y - x) →
      (refrPass refr l).length < l.length
  | [], h => absurd List.chain'_nil h
  | [a], h => absurd (List.chain'_singleton a) h
  | a :: b :: rest, h => by
    simp only [refrPass]
    split
    · have hstep : (b :: rest).length < (a :: b :: rest).length := by simp
      exact lt_of_le_of_lt (refrPass_sublist refr (b :: rest)).length_le hstep
    · rename_i hmark
      rw [List.chain'_cons] at h
      push_neg at h
      simp only [List.length_cons]
      refine Nat.succ_lt_succ ?_
      rcases Classical.em (refr < b - a) with hab | hab
      · exact refrPass_shrinks refr (b :: rest) (h hab)
      · push_neg at hab
        push_neg at hmark
        have hrest := hmark hab
        match rest, hrest with
        | [], hrest => simp at hrest
        | c :: rest2, hrest =>
          refine refrPass_shrinks refr (b :: c :: rest2) ?_
          rw [List.chain'_cons]
          push_neg
          intro hbc
          exact absurd hbc (not_lt.mpr (by simpa using hrest.le))

theorem refrPass_eq_of_chain (refr : ℚ) :
    ∀ l : List ℚ, l.Chain' (fun x y => refr < y - x) → refrPass refr l = l
  | [], _ => rfl
  | [a], _ => rfl
  | a :: b :: rest, h => by
    rw [List.chain'_cons] at h
    simp only [refrPass]
    split
    · rename_i hmark
      exact absurd hmark.1 (not_le.mpr (by linarith [h.1]))
    · rw [refrPass_eq_of_chain refr (b :: rest) h.2]

/-- With enough fuel (the list length suffices, since every productive pass
strictly shrinks the list) the iteration of `enforce_refractory_period`
reaches a fixed point of the marking pass. -/
theorem refrLoopF_fixed (refr : ℚ) :
    ∀ (fuel : ℕ) (l : List ℚ), l.length ≤ fuel →
      refrPass refr (refrLoopF refr fuel l) = refrLoopF refr fuel l := by
  intro fuel
  induction fuel with
  | zero =>
    intro l hl
    have : l = [] := List.eq_nil_of_length_eq_zero (Nat.le_zero.mp hl)
    subst this
    rfl
  | succ fuel ih =>
    intro l hl
    show refrPass refr
        (if (refrPass refr l).length = l.length then l
          else refrLoopF refr fuel ((refrPass refr l).filter (fun t => decide (0 ≤ t))))
      = (if (refrPass refr l).length = l.length then l
          else refrLoopF refr fuel ((refrPass refr l).filter (fun t => decide (0 ≤ t))))
    split
    · rename_i he
      exact (refrPass_sublist refr l).eq_of_length he
    · rename_i hne
      refine ih _ ?_
      have h1 : ((refrPass refr l).filter (fun t => decide (0 ≤ t))).length ≤
          (refrPass refr l).length := List.length_filter_le _ _
      have h2 : (refrPass refr l).length < l.length :=
        lt_of_le_of_ne (refrPass_sublist refr l).length_le hne
      omega

theorem chain_gap_pairwise (refr : ℚ) (hr : 0 ≤ refr) :
    ∀ l : List ℚ, l.Chain' (fun x y => refr < y - x) →
      l.Pairwise (fun x y => refr < y - x)
  | [], _ => List.Pairwise.nil
  | [a], _ => by simp
  | a :: b :: rest, h => by
    rw [List.chain'_cons] at h
    have ih := chain_gap_pairwise refr hr (b :: rest) h.2
    refine List.Pairwise.cons ?_ ih
    intro c hc
    rcases List.mem_cons.mp hc with rfl | hc
    · exact h.1
    · have hbc : refr < c - b := (List.pairwise_cons.mp ih).1 c hc
      linarith [h.1]

/-- C9: `enforce_refractory_period` terminates on every finite input — every
pass that does not reach a fixed point strictly removes at least one
candidate, a fixed-point pass certifies that no two retained times are
within the threshold of each other, and the returned list is such a fixed
point. -/
theorem enforce_refractory_progress_fixed (l : List ℚ) (refr : ℚ)
    (hr : 0 ≤ refr) :
    (refrPass refr l ≠ l → (refrPass refr l).length < l.length) ∧
    (refrPass refr l = l → l.Pairwise (fun x y => refr < y - x)) ∧
    refrPass refr (enforce_refractory_period l refr) =
      enforce_refractory_period l refr := by
  refine ⟨?_, ?_, ?_⟩
  · intro hne
    exact lt_of_le_of_ne (refrPass_sublist refr l).length_le
      (fun he => hne ((refrPass_sublist refr l).eq_of_length he))
  · intro hfix
    by_contra hnp
    have hch : ¬ l.Chain' (fun x y => refr < y - x) :=
      fun hch => hnp (chain_gap_pairwise refr hr l hch)
    have hlt := refrPass_shrinks refr l hch
    rw [hfix] at hlt
    exact lt_irrefl _ hlt
  · unfold enforce_refractory_period
    split
    · rename_i he
      subst he
      rfl
    · exact refrLoopF_fixed refr _ _ (le_refl _)

/-- Witness for `enforce_refractory_progress_fixed` at the concrete input
`[0, 100]` with threshold `120`. -/
theorem enforce_refractory_progress_fixed_witness :
    (0 : ℚ) ≤ 120 ∧
    ((refrPass 120 [(0 : ℚ), 100] ≠ [(0 : ℚ), 100] →
        (refrPass 120 [(0 : ℚ), 100]).length < ([(0 : ℚ), 100]).length) ∧
      (refrPass 120 [(0 : ℚ), 100] = [(0 : ℚ), 100] →
        ([(0 : ℚ), 100]).Pairwise (fun x y => (120 : ℚ) < y - x)) ∧
      refrPass 120 (enforce_refractory_period [(0 : ℚ), 100] 120) =
        enforce_refractory_period [(0 : ℚ), 100] 120) :=
  ⟨by norm_num, enforce_refractory_progress_fixed [(0 : ℚ), 100] 120 (by norm_num)⟩

/-! ### C3: which member of a violating pair survives -/

theorem refrPass_cons_of_gap (refr x : ℚ) (l : List ℚ) (hne : l ≠ [])
    (hx : ∀ y ∈ l.head?, refr < y - x) :
    refrPass refr (x :: l) = x :: refrPass refr l := by
  obtain ⟨y, l2, rfl⟩ := List.exists_cons_of_ne_nil hne
  have hxy : refr < y - x := hx y rfl
  simp only [refrPass]
  split
  · rename_i hmark
    exact absurd hmark.1 (not_le.mpr hxy)
  · rfl

theorem refrPass_append_chain (refr a : ℚ) (t : List ℚ) :
    ∀ pre : List ℚ, List.Chain' (fun x y => refr < y - x) (pre ++ [a]) →
      refrPass refr (pre ++ a :: t) = pre ++ refrPass refr (a :: t)
  | [], _ => rfl
  | p :: pre, h => by
    rw [List.cons_append, List.chain'_cons'] at h
    have hhead : ∀ y ∈ (pre ++ a :: t).head?, refr < y - p := by
      cases pre with
      | nil =>
        intro y hy
        apply h.1
        simpa using hy
      | cons q pre2 =>
        intro y hy
        apply h.1
        simpa using hy
    rw [List.cons_append,
      refrPass_cons_of_gap refr p (pre ++ a :: t) (by simp) hhead,
      refrPass_append_chain refr a t pre h.2, List.cons_append]

theorem refrPass_fires_at (refr a b : ℚ) (post : List ℚ)
    (hviol : b - a ≤ refr) (hbp : ∀ y ∈ post.head?, refr < y - b) :
    refrPass refr (a :: b :: post) = refrPass refr (b :: post) := by
  simp only [refrPass]
  split
  · rfl
  · rename_i hmark
    exfalso
    apply hmark
    refine ⟨hviol, ?_⟩
    cases post with
    | nil => simp
    | cons c post2 => simpa using (hbp c rfl).le

theorem refrLoopF_of_fixed (refr : ℚ) (fuel : ℕ) (l : List ℚ)
    (h : (refrPass refr l).length = l.length) :
    refrLoopF refr fuel l = l := by
  cases fuel with
  | zero => rfl
  | succ fuel =>
    show (if (refrPass refr l).length = l.length then l
      else refrLoopF refr fuel ((refrPass refr l).filter (fun t => decide (0 ≤ t)))) = l
    rw [if_pos h]

theorem refrLoopF_step (refr : ℚ) (fuel : ℕ) (l : List ℚ)
    (h : (refrPass refr l).length ≠ l.length) :
    refrLoopF refr (fuel + 1) l =
      refrLoopF refr fuel ((refrPass refr l).filter (fun t => decide (0 ≤ t))) := by
  show (if (refrPass refr l).length = l.length then l
    else refrLoopF refr fuel ((refrPass refr l).filter (fun t => decide (0 ≤ t)))) = _
  rw [if_neg h]

/-- C3 (amended): `enforce_refractory_period` prefers to keep the
*later*-occurring member of a violating run — for every nonnegative input in
which exactly the two times `a < b` violate the threshold and neither is
within the threshold of any other input time, the returned subset contains
`b` and omits `a`. -/
theorem enforce_refractory_keeps_later_of_pair
    (pre post : List ℚ) (a b refr : ℚ)
    (hr : 0 ≤ refr) (hab : a < b) (hviol : b - a ≤ refr)
    (hpre : List.Chain' (fun x y => refr < y - x) pre)
    (hpost : List.Chain' (fun x y => refr < y - x) post)
    (hpa : ∀ x ∈ pre.getLast?, refr < a - x)
    (hbp : ∀ y ∈ post.head?, refr < y - b)
    (hnn : ∀ x ∈ pre ++ a :: b :: post, 0 ≤ x) :
    enforce_refractory_period (pre ++ a :: b :: post) refr = pre ++ b :: post ∧
    b ∈ enforce_refractory_period (pre ++ a :: b :: post) refr ∧
    a ∉ enforce_refractory_period (pre ++ a :: b :: post) refr := by
  -- the combined list and some of its pieces, chained by strict gaps
  have hchain_pre_a : List.Chain' (fun x y => refr < y - x) (pre ++ [a]) := by
    rw [List.chain'_append]
    exact ⟨hpre, List.chain'_singleton a, fun x hx y hy => by
      cases hy
      exact hpa x hx⟩
  have hchain_bpost : List.Chain' (fun x y => refr < y - x) (b :: post) := by
    rw [List.chain'_cons']
    exact ⟨hbp, hpost⟩
  have hchain_result : List.Chain' (fun x y => refr < y - x) (pre ++ b :: post) := by
    rw [List.chain'_append]
    refine ⟨hpre, hchain_bpost, fun x hx y hy => ?_⟩
    have hxa : refr < a - x := hpa x hx
    have hy2 : b = y := by simpa using hy
    subst hy2
    linarith
  have hpw_pre_a := chain_gap_pairwise refr hr (pre ++ [a]) hchain_pre_a
  have hpw_b := chain_gap_pairwise refr hr (b :: post) hchain_bpost
  -- the input is already sorted, so np.sort leaves it unchanged
  have hsorted : List.Sorted (· ≤ ·) (pre ++ a :: b :: post) := by
    show List.Pairwise (· ≤ ·) (pre ++ a :: b :: post)
    rw [List.pairwise_append]
    refine ⟨?_, ?_, ?_⟩
    · exact (chain_gap_pairwise refr hr pre hpre).imp (fun h => by linarith)
    · rw [List.pairwise_cons]
      refine ⟨?_, hpw_b.imp (fun h => by linarith)⟩
      intro y hy
      rcases List.mem_cons.mp hy with rfl | hy2
      · exact hab.le
      · have : refr < y - b := (List.pairwise_cons.mp hpw_b).1 y hy2
        linarith
    · intro x hx y hy
      have hxa : refr < a - x :=
        (List.pairwise_append.mp hpw_pre_a).2.2 x hx a (by simp)
      rcases List.mem_cons.mp hy with rfl | hy2
      · linarith
      · rcases List.mem_cons.mp hy2 with rfl | hy3
        · linarith
        · have : refr < y - b := (List.pairwise_cons.mp hpw_b).1 y hy3
          linarith
  -- one pass removes exactly a
  have hpass : refrPass refr (pre ++ a :: b :: post) = pre ++ b :: post := by
    rw [refrPass_append_chain refr a (b :: post) pre hchain_pre_a,
      refrPass_fires_at refr a b post hviol hbp,
      refrPass_eq_of_chain refr (b :: post) hchain_bpost]
  -- hence the loop stops after that single productive pass
  have hne : pre ++ a :: b :: post ≠ [] := by simp
  have hmain : enforce_refractory_period (pre ++ a :: b :: post) refr =
      pre ++ b :: post := by
    unfold enforce_refractory_period
    rw [if_neg hne, List.Sorted.insertionSort_eq hsorted]
    show refrLoopF refr (pre ++ a :: b :: post).length (pre ++ a :: b :: post) =
      pre ++ b :: post
    obtain ⟨n, hn⟩ : ∃ n, (pre ++ a :: b :: post).length = n + 1 :=
      ⟨pre.length + post.length + 1, by
        simp only [List.length_append, List.length_cons]
        omega⟩
    rw [hn, refrLoopF_step refr n _ (by
      rw [hpass]
      simp only [List.length_append, List.length_cons]
      omega)]
    have hfilter : (refrPass refr (pre ++ a :: b :: post)).filter
        (fun t => decide (0 ≤ t)) = pre ++ b :: post := by
      rw [hpass]
      refine List.filter_eq_self.mpr ?_
      intro x hx
      simp only [decide_eq_true_eq]
      apply hnn
      rcases List.mem_append.mp hx with hx2 | hx2
      · exact List.mem_append.mpr (Or.inl hx2)
      · exact List.mem_append.mpr (Or.inr (List.mem_cons_of_mem a hx2))
    rw [hfilter]
    exact refrLoopF_of_fixed refr n _ (by
      rw [refrPass_eq_of_chain refr _ hchain_result])
  refine ⟨hmain, ?_, ?_⟩
  · rw [hmain]
    exact List.mem_append.mpr (Or.inr (List.mem_cons_self b post))
  · rw [hmain]
    intro hmem
    rcases List.mem_append.mp hmem with hx | hx
    · have : refr < a - a := (List.pairwise_append.mp hpw_pre_a).2.2 a hx a (by simp)
      linarith
    · rcases List.mem_cons.mp hx with he | hx2
      · exact absurd he (ne_of_lt hab)
      · have : refr < a - b := (List.pairwise_cons.mp hpw_b).1 a hx2
        linarith

/-- C3 counterexample: at the concrete input `{0, 100}` with threshold `120`
(exactly the two times `0 < 100` violate, no other time exists), the source
keeps the *later* time `100` and removes the earlier time `0` — the returned
subset omits `a = 0` and contains `b = 100`, contradicting the claimed
preference for the earlier member. -/
theorem enforce_refractory_drops_earlier_cex :
    enforce_refractory_period [(0 : ℚ), 100] 120 = [100] ∧
    (0 : ℚ) ∉ enforce_refractory_period [(0 : ℚ), 100] 120 ∧
    (100 : ℚ) ∈ enforce_refractory_period [(0 : ℚ), 100] 120 := by
  with_unfolding_all decide

/-- Witness for `enforce_refractory_keeps_later_of_pair` at `pre = [0]`,
`a = 200`, `b = 300`, `post = [500]`, threshold `120`. -/
theorem enforce_refractory_keeps_later_of_pair_witness :
    ((0 : ℚ) ≤ 120 ∧ (200 : ℚ) < 300 ∧ (300 : ℚ) - 200 ≤ 120 ∧
      List.Chain' (fun x y => (120 : ℚ) < y - x) [0] ∧
      List.Chain' (fun x y => (120 : ℚ) < y - x) [500] ∧
      (∀ x ∈ ([(0 : ℚ)]).getLast?, (120 : ℚ) < 200 - x) ∧
      (∀ y ∈ ([(500 : ℚ)]).head?, (120 : ℚ) < y - 300) ∧
      (∀ x ∈ [(0 : ℚ)] ++ 200 :: 300 :: [500], 0 ≤ x)) ∧
    (enforce_refractory_period ([(0 : ℚ)] ++ 200 :: 300 :: [500]) 120 =
        [(0 : ℚ)] ++ 300 :: [500] ∧
      (300 : ℚ) ∈
        enforce_refractory_period ([(0 : ℚ)] ++ 200 :: 300 :: [500]) 120 ∧
      (200 : ℚ) ∉
        enforce_refractory_period ([(0 : ℚ)] ++ 200 :: 300 :: [500]) 120) :=
  ⟨⟨by norm_num, by norm_num, by norm_num, List.chain'_singleton 0,
      List.chain'_singleton 500,
      by intro x hx; simp at hx; subst hx; norm_num,
      by intro y hy; simp at hy; subst hy; norm_num,
      by intro x hx; fin_cases hx <;> norm_num⟩,
    enforce_refractory_keeps_later_of_pair [0] [500] 200 300 120
      (by norm_num) (by norm_num) (by norm_num)
      (List.chain'_singleton 0) (List.chain'_singleton 500)
      (by intro x hx; simp at hx; subst hx; norm_num)
      (by intro y hy; simp at hy; subst hy; norm_num)
      (by intro x hx; fin_cases hx <;> norm_num)⟩

/-! ### C1/C2: the labels returned by the firing generator -/

/-- C1 (code behavior at a failing input): with `K = 2` units, each producing
one surviving spike (times `100` and `102`), the labels returned by
`synthesize_random_firings` are both the constant `1` — the source computes
`labels0 = np.ones(times0.size, dtype='int64')` and never uses the loop
variable `unit_id` — so the output label set is `{1}`: it misses `0` (0-based
unit ids) and misses `2` (1-based unit ids) although both units fired. -/
theorem synthesize_random_firings_labels_constant :
    synthesize_random_firings Ωfir 2 1000 1 0 = ([100, 102], [1, 1]) ∧
    (0 : ℤ) ∉ (synthesize_random_firings Ωfir 2 1000 1 0).2 ∧
    (2 : ℤ) ∉ (synthesize_random_firings Ωfir 2 1000 1 0).2 ∧
    (synthesize_random_firings Ωfir 2 1000 1 0).1.length = 2 := by
  with_unfolding_all decide

/-- C2 (code behavior at a failing input): in the same two-unit run the two
spikes of *different* units at times `100` and `102` carry the same label `1`
and are 2 samples apart — far below the refractory threshold
`refr / 1000 × sampling_frequency = 4 / 1000 × 1000 = 4` samples — so
consecutive same-label times of the returned train violate the threshold. -/
theorem synthesize_random_firings_same_label_close :
    synthesize_random_firings Ωfir 2 1000 1 0 = ([100, 102], [1, 1]) ∧
    (synthesize_random_firings Ωfir 2 1000 1 0).2.getD 0 37 =
      (synthesize_random_firings Ωfir 2 1000 1 0).2.getD 1 37 ∧
    (synthesize_random_firings Ωfir 2 1000 1 0).1.getD 1 0 -
      (synthesize_random_firings Ωfir 2 1000 1 0).1.getD 0 0 < 4 ∧
    (4 : ℚ) / 1000 * 1000 = 4 := by
  with_unfolding_all decide

/-! ### C5: neuron placement with a single unit -/

/-- C5 (code behavior at the failing input `K = 1`): for a single unit the
placer evaluates `(k - 1) / (K - 1)` with `K - 1 = 0` — a Python
`ZeroDivisionError` — because the only guard in the loop is the dead test
`if K > 0:`; no position is returned, for every channel count and
geometry. -/
theorem get_default_neuron_locations_single_unit_raises
    (M : ℕ) (geometry : ℕ → ℚ × ℚ) :
    get_default_neuron_locations M 1 geometry = none := rfl

/-! ### C6/C10: the orchestrator -/

theorem mapM_congr_const {α β : Type} (s : α) (f : β → Option α) :
    ∀ l : List β, (∀ x, f x = some s) →
      l.mapM f = some (List.replicate l.length s)
  | [], _ => rfl
  | x :: l, hf => by
    rw [List.mapM_cons, hf x, mapM_congr_const s f l hf]
    rfl

theorem mapM_none_of_mem {α β : Type} (f : β → Option α) :
    ∀ l : List β, ∀ x ∈ l, f x = none → l.mapM f = none
  | [], x, hx, _ => absurd hx (List.not_mem_nil x)
  | y :: l, x, hx, hf => by
    rw [List.mapM_cons]
    rcases List.mem_cons.mp hx with rfl | hx2
    · rw [hf]
      rfl
    · cases hy : f y with
      | none => rfl
      | some b =>
        rw [mapM_none_of_mem f l x hx2 hf]
        rfl

theorem getD_replicate_of_lt {α : Type} (s d : α) :
    ∀ (n i : ℕ), i < n → (List.replicate n s).getD i d = s
  | 0, i, h => absurd h (Nat.not_lt_zero i)
  | _ + 1, 0, _ => rfl
  | n + 1, i + 1, h =>
    getD_replicate_of_lt s d n i (Nat.lt_of_succ_lt_succ h)

/-- C6 (code behavior at the failing input): the per-segment duration list
`[10.0, 20.0]` passes the orchestrator's validation (length = num_segments
= 2, all floats), yet no recording segments are produced: the segment loop
forwards the raw list to `synthesize_random_firings`, where
`duration * sampling_frequency` is a Python `list * float` — a `TypeError` —
for every oracle, seed and numeric functions. -/
theorem toy_example_duration_list_type_error
    (Ω : RandomOracle) (seed : ℕ) (expFn sqrtFn : ℚ → ℚ) :
    toy_example Ω (Sum.inr [10, 20]) 4 10 30000 2 (-100) 13 seed expFn sqrtFn =
      none := by
  unfold toy_example
  cases h : synthesize_random_waveforms Ω 4 500 10 13 3 (-100) seed expFn sqrtFn with
  | none => rfl
  | some w =>
    exact mapM_none_of_mem
      (fun _ : ℕ => toy_example_segment Ω (Sum.inr [10, 20]) 10 30000 13 seed w
        ((List.range 10).map (fun u : ℕ => (u : ℤ))))
      (List.range 2) 0 (by decide) rfl

/-- C10: when a seed is supplied, `toy_example` passes the same seed verbatim
to `synthesize_random_firings` and `synthesize_timeseries` in every segment,
so any two segments of one invocation carry identical spike times, labels
and traces. -/
theorem toy_example_segments_identical
    (Ω : RandomOracle) (d : ℚ) (nc nu : ℕ) (sf : ℚ) (ns : ℕ) (avg : ℚ)
    (upsf seed : ℕ) (expFn sqrtFn : ℚ → ℚ) (i j : ℕ)
    (hi : i < ns) (hj : j < ns) :
    Option.elim (toy_example Ω (Sum.inl d) nc nu sf ns avg upsf seed expFn sqrtFn)
      True (fun res => res.getD i default = res.getD j default) := by
  unfold toy_example
  cases h : synthesize_random_waveforms Ω nc 500 nu upsf 3 avg seed expFn sqrtFn with
  | none => exact trivial
  | some w =>
    show Option.elim ((List.range ns).mapM (fun _ : ℕ =>
        toy_example_segment Ω (Sum.inl d) nu sf upsf seed w
          ((List.range nu).map (fun u : ℕ => (u : ℤ))))) True
      (fun res => res.getD i default = res.getD j default)
    cases hseg : toy_example_segment Ω (Sum.inl d) nu sf upsf seed w
        ((List.range nu).map (fun u : ℕ => (u : ℤ))) with
    | none =>
      rw [mapM_none_of_mem (fun _ : ℕ => (none : Option SegmentData))
        (List.range ns) 0
        (List.mem_range.mpr (lt_of_le_of_lt (Nat.zero_le i) hi)) rfl]
      exact trivial
    | some s =>
      rw [mapM_congr_const s (fun _ : ℕ => some s) (List.range ns) (fun x => rfl)]
      show (List.replicate (List.range ns).length s).getD i default =
        (List.replicate (List.range ns).length s).getD j default
      rw [getD_replicate_of_lt s default _ i (by simpa using hi),
        getD_replicate_of_lt s default _ j (by simpa using hj)]

/-- Witness for `toy_example_segments_identical` at a concrete seeded
two-segment configuration. -/
theorem toy_example_segments_identical_witness :
    ((0 : ℕ) < 2 ∧ (1 : ℕ) < 2) ∧
    Option.elim (toy_example Ωfir (Sum.inl 1) 1 2 1000 2 (-100) 1 0
        (fun q => 1 + q) (fun q => q))
      True (fun res => res.getD 0 default = res.getD 1 default) :=
  ⟨⟨by decide, by decide⟩,
    toy_example_segments_identical Ωfir 1 1 2 1000 2 (-100) 1 0
      (fun q => 1 + q) (fun q => q) 0 1 (by decide) (by decide)⟩

/-! ### C7: dropped spikes and untouched columns -/

theorem stampSpike_preserves (w : ℕ → ℕ → ℚ) (TT upsamplefac : ℕ) (N : ℤ)
    (X : ℕ → ℕ → ℚ) (t0 : ℚ) (m j : ℕ)
    (h : spikeUntouched TT upsamplefac N j t0) :
    stampSpike w TT upsamplefac N X t0 m j = X m j := by
  unfold stampSpike
  split
  · rename_i hacc
    simp only [if_neg (h hacc), add_zero]
  · rfl

theorem foldl_stampSpike_preserves (w : ℕ → ℕ → ℚ) (TT upsamplefac : ℕ)
    (N : ℤ) (m j : ℕ) :
    ∀ (times : List ℚ) (X : ℕ → ℕ → ℚ),
      (∀ t ∈ times, spikeUntouched TT upsamplefac N j t) →
      times.foldl (stampSpike w TT upsamplefac N) X m j = X m j
  | [], X, _ => rfl
  | t :: ts, X, h => by
    rw [List.foldl_cons,
      foldl_stampSpike_preserves w TT upsamplefac N m j ts _
        (fun u hu => h u (List.mem_cons_of_mem t hu))]
    exact stampSpike_preserves w TT upsamplefac N X t m j
      (h t (List.mem_cons_self t ts))

theorem stampUnit_preserves (spike_times : List ℚ) (spike_labels : List ℤ)
    (W : ℕ → ℕ → ℕ → ℚ) (K TT upsamplefac : ℕ) (N : ℤ) (k0 : ℤ)
    (X : ℕ → ℕ → ℚ) (m j : ℕ)
    (h : ∀ p ∈ spike_times.zip spike_labels, p.2 = k0 →
      spikeUntouched TT upsamplefac N j p.1) :
    stampUnit spike_times spike_labels W K TT upsamplefac N k0 X m j = X m j := by
  unfold stampUnit
  apply foldl_stampSpike_preserves
  intro t ht
  obtain ⟨p, hp, rfl⟩ := List.mem_map.mp ht
  have hpz := List.mem_filter.mp hp
  exact h p hpz.1 (by simpa using hpz.2)

/-- C7: in `synthesize_timeseries`, a spike of a unit in `unit_ids` at time
`t` is added only when its full stamping window
`[⌊t⌋ - Tmid, ⌊t⌋ - Tmid + T)` lies within `[0, N)`; spikes whose window
starts negative or runs past `N` are silently dropped and contribute
nothing, so every output column outside all accepted windows equals the pure
noise background `noise * noise_level`. -/
theorem synthesize_timeseries_outside_windows_noise
    (Ω : RandomOracle) (spike_times : List ℚ) (spike_labels : List ℤ)
    (unit_ids : List ℤ) (W : ℕ → ℕ → ℕ → ℚ) (K TT upsamplefac : ℕ) (N : ℤ)
    (noise_level : ℚ) (seed : ℕ) (m j : ℕ)
    (hout : ∀ p ∈ spike_times.zip spike_labels, p.2 ∈ unit_ids →
      spikeUntouched TT upsamplefac N j p.1) :
    synthesize_timeseries_core Ω spike_times spike_labels unit_ids W K TT
      upsamplefac N noise_level seed m j = Ω.noise seed m j * noise_level := by
  unfold synthesize_timeseries_core
  suffices hgen : ∀ (ks : List ℤ) (X : ℕ → ℕ → ℚ),
      (∀ p ∈ spike_times.zip spike_labels, p.2 ∈ ks →
        spikeUntouched TT upsamplefac N j p.1) →
      (ks.foldl
        (fun X k0 => stampUnit spike_times spike_labels W K TT upsamplefac N k0 X)
        X) m j = X m j by
    exact hgen unit_ids _ hout
  intro ks
  induction ks with
  | nil => intro X _; rfl
  | cons k ks ih =>
    intro X h
    rw [List.foldl_cons,
      ih _ (fun p hp hk => h p hp (List.mem_cons_of_mem k hk))]
    exact stampUnit_preserves spike_times spike_labels W K TT upsamplefac N k X
      m j (fun p hp he => h p hp (he ▸ List.mem_cons_self k ks))

/-- Witness for `synthesize_timeseries_outside_windows_noise`: one accepted
spike at time `5` (window `[3, 7)` inside `[0, 10)`), column `0` outside the
window keeps the noise background. -/
theorem synthesize_timeseries_outside_windows_noise_witness :
    (∀ p ∈ ([(5 : ℚ)]).zip [(1 : ℤ)], p.2 ∈ [(1 : ℤ)] →
      spikeUntouched 4 1 10 0 p.1) ∧
    synthesize_timeseries_core Ωfir [(5 : ℚ)] [(1 : ℤ)] [(1 : ℤ)]
      (fun _ _ _ => 7) 1 4 1 10 3 0 0 0 = Ωfir.noise 0 0 0 * 3 :=
  ⟨by with_unfolding_all decide,
    synthesize_timeseries_outside_windows_noise Ωfir [(5 : ℚ)] [(1 : ℤ)]
      [(1 : ℤ)] (fun _ _ _ => 7) 1 4 1 10 3 0 0 0
      (by with_unfolding_all decide)⟩

/-- Witness for `synthesize_single_waveform_length_centered` at `N = 12`,
durations `(2, 2, 2, 3)`, amplitudes `(1/2, 10, -1, 0)` and a concrete
stand-in for `np.exp`. -/
theorem synthesize_single_waveform_length_centered_witness :
    ((∀ i, 1 ≤ (![2, 2, 2, 3] : Fin 4 → ℚ) i) ∧
      (![2, 2, 2, 3] : Fin 4 → ℚ) 0 + (![2, 2, 2, 3] : Fin 4 → ℚ) 1 +
        (![2, 2, 2, 3] : Fin 4 → ℚ) 2 + 3 ≤ ((12 : ℕ) : ℚ)) ∧
    ((synthesize_single_waveform 12 ![2, 2, 2, 3] ![1/2, 10, -1, 0]
        (fun q => 1 + q)).length = 12 ∧
      ∀ i < 12,
        |(synthesize_single_waveform 12 ![2, 2, 2, 3] ![1/2, 10, -1, 0]
          (fun q => 1 + q)).getD i 0| ≤
        |(synthesize_single_waveform 12 ![2, 2, 2, 3] ![1/2, 10, -1, 0]
          (fun q => 1 + q)).getD (12 / 2) 0|) :=
  ⟨⟨by with_unfolding_all decide, by with_unfolding_all decide⟩,
    synthesize_single_waveform_length_centered 12 ![2, 2, 2, 3]
      ![1/2, 10, -1, 0] (fun q => 1 + q) (by with_unfolding_all decide)
      (by with_unfolding_all decide)⟩

/-! ### C4: the global amplitude normalization -/

theorem foldr_max_nonneg (l : List ℚ) : 0 ≤ l.foldr max 0 := by
  induction l with
  | nil => exact le_refl 0
  | cons x xs ih => exact le_max_of_le_right ih

theorem meanPeaks_nonneg (M TT K : ℕ) (WW : ℕ → ℕ → ℕ → ℚ) :
    0 ≤ meanPeaks M TT K WW := by
  unfold meanPeaks
  apply div_nonneg _ (Nat.cast_nonneg K)
  apply List.sum_nonneg
  intro x hx
  obtain ⟨k, _, rfl⟩ := List.mem_map.mp hx
  exact foldr_max_nonneg _

theorem meanPeaks_ne_neg (M TT K : ℕ) (WW : ℕ → ℕ → ℕ → ℚ) (c : ℚ)
    (hc : c < 0) : meanPeaks M TT K WW ≠ c :=
  fun h => absurd (h ▸ meanPeaks_nonneg M TT K WW) (not_le.mpr hc)

theorem foldr_max_mul (c : ℚ) (hc : 0 ≤ c) :
    ∀ l : List ℚ, (l.map (fun x => x * c)).foldr max 0 = l.foldr max 0 * c
  | [] => by simp
  | x :: xs => by
    simp only [List.map_cons, List.foldr_cons, foldr_max_mul c hc xs]
    exact (max_mul_of_nonneg x _ hc).symm

theorem peakUnit_scale (M TT : ℕ) (w : ℕ → ℕ → ℚ) (c : ℚ) :
    peakUnit M TT (fun m t => w m t * c) = peakUnit M TT w * |c| := by
  unfold peakUnit
  have hinner : ∀ m : ℕ,
      ((List.range TT).map (fun t => |w m t * c|)).foldr max 0 =
      ((List.range TT).map (fun t => |w m t|)).foldr max 0 * |c| := by
    intro m
    have hmap : (List.range TT).map (fun t => |w m t * c|) =
        ((List.range TT).map (fun t => |w m t|)).map (fun x => x * |c|) := by
      rw [List.map_map]
      apply List.map_congr_left
      intro t _
      simp [abs_mul]
    rw [hmap]
    exact foldr_max_mul |c| (abs_nonneg c) _
  have houter : (List.range M).map
      (fun m => ((List.range TT).map (fun t => |w m t * c|)).foldr max 0) =
      ((List.range M).map
        (fun m => ((List.range TT).map (fun t => |w m t|)).foldr max 0)).map
        (fun x => x * |c|) := by
    rw [List.map_map]
    apply List.map_congr_left
    intro m _
    exact hinner m
  rw [houter]
  exact foldr_max_mul |c| (abs_nonneg c) _

theorem sum_map_mul (a : ℚ) :
    ∀ l : List ℚ, (l.map (fun x => x * a)).sum = l.sum * a
  | [] => by simp
  | x :: xs => by simp [sum_map_mul a xs, add_mul]

theorem meanPeaks_scale (M TT K : ℕ) (WW : ℕ → ℕ → ℕ → ℚ) (c : ℚ) :
    meanPeaks M TT K (fun m t k => WW m t k * c) =
      meanPeaks M TT K WW * |c| := by
  unfold meanPeaks
  have hmap : (List.range K).map
      (fun k => peakUnit M TT (fun m t => WW m t k * c)) =
      ((List.range K).map (fun k => peakUnit M TT (fun m t => WW m t k))).map
        (fun x => x * |c|) := by
    rw [List.map_map]
    apply List.map_congr_left
    intro k _
    exact peakUnit_scale M TT (fun m t => WW m t k) c
  rw [hmap, sum_map_mul]
  ring

/-- C4 (amended): after the global normalization the mean over units of
per-unit peak absolute amplitudes equals the *absolute value* of the
configured average peak amplitude (not its signed value), whenever the
pre-normalization mean peak is positive and there is at least one unit. -/
theorem normalize_templates_mean_abs_peak (M TT K : ℕ)
    (WW : ℕ → ℕ → ℕ → ℚ) (avg : ℚ) (hpos : 0 < meanPeaks M TT K WW) :
    meanPeaks M TT K (normalize_templates M TT K WW avg) = |avg| := by
  have hfun : normalize_templates M TT K WW avg =
      (fun m t k => WW m t k * (avg / meanPeaks M TT K WW)) := by
    funext m t k
    unfold normalize_templates
    ring
  rw [hfun, meanPeaks_scale, abs_div, abs_of_pos hpos, mul_comm,
    div_mul_cancel₀ _ (ne_of_gt hpos)]

/-- Witness for `normalize_templates_mean_abs_peak` on a one-entry tensor
with `average_peak_amplitude = -100`: the normalized mean peak is
`|-100| = 100`. -/
theorem normalize_templates_mean_abs_peak_witness :
    0 < meanPeaks 1 1 1 (fun _ _ _ => (1 : ℚ)) ∧
    meanPeaks 1 1 1 (normalize_templates 1 1 1 (fun _ _ _ => (1 : ℚ)) (-100)) =
      |(-100 : ℚ)| :=
  ⟨by with_unfolding_all decide,
    normalize_templates_mean_abs_peak 1 1 1 (fun _ _ _ => (1 : ℚ)) (-100)
      (by with_unfolding_all decide)⟩

/-- C4 counterexample: at a concrete two-unit single-channel configuration
`synthesize_random_waveforms` succeeds, and the post-normalization mean of
per-unit peak *absolute* amplitudes — a mean of absolute values, hence
nonnegative — cannot equal the configured signed
`average_peak_amplitude = -100`. -/
theorem synthesize_random_waveforms_mean_peak_not_signed_cex :
    Option.elim (synthesize_random_waveforms Ωfir 1 12 2 1 3 (-100) 0
        (fun q => 1 + q) (fun _ => 0)) False
      (fun WW => meanPeaks 1 (12 * 1) 2 WW ≠ -100) := by
  have hloc : get_default_neuron_locations 1 2 defaultGeometry =
      some [(1, 0), (1, 0)] := by with_unfolding_all decide
  unfold synthesize_random_waveforms synthesize_random_waveforms_raw
  rw [hloc]
  exact meanPeaks_ne_neg 1 (12 * 1) 2 _ (-100) (by norm_num)

end ToyExample
